import Mathlib

set_option maxHeartbeats 1000000

/-! Shallow embedding of the girgs repository pieces the claims are about:
the satgirgs edge pipeline (source/satgirgs/source/Generator.cpp) and the
hypergirgs RadiusLayer spatial index (source/hypergirgs/source/RadiusLayer.cpp),
together with proofs settling the claims about them. Machine doubles enter the
code only through opaque comparison/transform functions, which are abstracted
as rational-valued parameters; machine ints carry values far from overflow in
every statement below and are embedded as unbounded integers. -/

/-- Modelled from the spec: a node record carrying a position, a weight and a stable
integer index. The Node2D class itself lives in a header that is not among the
provided sources; real-valued coordinates and weights are represented by rationals,
and node equality (used by the second-nearest scan of generateEdges) is structural
equality of the record. -/
structure Node2D where
  coord : List ℚ
  weight : ℚ
  index : ℤ
deriving DecidableEq

/-- The canonicalization performed by addEdge in Generator.cpp (line 107): an edge
is stored with the smaller endpoint first. -/
def canonPair (u v : ℤ) : ℤ × ℤ := if u > v then (v, u) else (u, v)

/-- Canonicalize every pair of an edge list; used to state the round-trip property. -/
def canonEdges (edges : List (ℤ × ℤ)) : List (ℤ × ℤ) :=
  edges.map fun e => canonPair e.1 e.2

/-- Lexicographic comparison of edges, first component then second: the order used by
std::sort on a vector of int pairs, as a Boolean relation. -/
def edgeLe (a b : ℤ × ℤ) : Bool :=
  decide (a.1 < b.1) || (decide (a.1 = b.1) && decide (a.2 ≤ b.2))

/-- Insertion step of the sort modelling the std::sort call in deduplicateEdges. -/
def insertEdge (e : ℤ × ℤ) : List (ℤ × ℤ) → List (ℤ × ℤ)
  | [] => [e]
  | x :: xs => if edgeLe e x then e :: x :: xs else x :: insertEdge e xs

/-- Model of the std::sort call in deduplicateEdges (Generator.cpp line 67). The
lexicographic order on edges is total and antisymmetric, so every comparison sort
produces this same list and an insertion sort is a faithful model. -/
def sortEdges : List (ℤ × ℤ) → List (ℤ × ℤ)
  | [] => []
  | e :: es => insertEdge e (sortEdges es)

/-- The run-collapsing scan of deduplicateEdges (Generator.cpp lines 70-81): state is
the pair last seen, the current run length and the emitted triples. A triple is only
emitted when a pair different from the previous one is encountered. -/
def dedupLoop : List (ℤ × ℤ) → ℤ × ℤ → ℤ → List (ℤ × ℤ × ℤ) → List (ℤ × ℤ × ℤ)
  | [], _, _, acc => acc
  | e :: rest, lastSeen, run, acc =>
      if e = lastSeen then dedupLoop rest e (run + 1) acc
      else dedupLoop rest e 1 (acc ++ [(lastSeen.1, lastSeen.2, run)])

/-- Shallow embedding of deduplicateEdges (Generator.cpp lines 65-83): sort the list in
place, then scan it collapsing runs. On an empty input the source reads edges[0] out of
bounds without any emptiness check; that invalid read is modelled as none. -/
def deduplicateEdges (edges : List (ℤ × ℤ)) : Option (List (ℤ × ℤ × ℤ)) :=
  match sortEdges edges with
  | [] => none
  | e0 :: rest => some (dedupLoop (e0 :: rest) e0 0 [])

/-- The state of the caller's vector after deduplicateEdges returns: the function takes
its argument by reference and std::sort rearranges it in place (Generator.cpp line 67). -/
def deduplicateEdgesArgAfter (edges : List (ℤ × ℤ)) : List (ℤ × ℤ) := sortEdges edges

/-- Expand each deduplicated triple (u, v, mult) back into mult copies of the raw pair
(u, v); used to state the round-trip property of the spec. -/
def expandEdges (ts : List (ℤ × ℤ × ℤ)) : List (ℤ × ℤ) :=
  ts.flatMap fun t => List.replicate t.2.2.toNat (t.1, t.2.1)

/-- The accumulating scan of std::min_element: keep the current best, replace it exactly
when the comparator says a later element is strictly better, so the first optimum wins. -/
def minElemAccBy (lt : Node2D → Node2D → Bool) : Node2D → List Node2D → Node2D
  | b, [] => b
  | b, y :: ys => minElemAccBy lt (if lt y b then y else b) ys

/-- The source nodes paired with their loop index clauseIndex, starting at k: the
iteration space of the parallel for loop of generateEdges. -/
def withRanks (k : ℕ) : List Node2D → List (ℕ × Node2D)
  | [] => []
  | x :: xs => (k, x) :: withRanks (k + 1) xs

/-- The body of the generateEdges loop (Generator.cpp lines 118-138) for one source node
cp with loop index clauseIndex: find the nearest target by weighted distance, find the
second nearest with the comparator that pushes every node equal to the nearest to the
back, then emit the canonicalized edges for the selected mode. The weighted distance is
an opaque model-specific function of two nodes and enters only through comparisons, so
it is a rational-valued parameter dist. -/
def perSourceEdges (dist : Node2D → Node2D → ℚ) (t : Node2D) (ts : List Node2D)
    (ncCount : ℕ) (clauseIndex : ℕ) (cp : Node2D) (debugMode : Bool) : List (ℤ × ℤ) :=
  let nearest := minElemAccBy (fun a b => decide (dist a cp < dist b cp)) t ts
  let secondNearest := minElemAccBy
    (fun a b => if a = nearest then false else if b = nearest then true
      else decide (dist a cp < dist b cp)) t ts
  if debugMode then
    [canonPair nearest.index ((ncCount : ℤ) + (clauseIndex : ℤ)),
     canonPair secondNearest.index ((ncCount : ℤ) + (clauseIndex : ℤ))]
  else
    [canonPair nearest.index secondNearest.index]

/-- Shallow embedding of generateEdges (Generator.cpp lines 86-144). The thread-local
buffers and the lock-guarded flushes only concatenate the per-source edge lists, so the
returned list is the concatenation over sources in loop order. With an empty target list
the source dereferences the end iterator returned by min_element; that invalid access is
modelled as none. -/
def generateEdges (dist : Node2D → Node2D → ℚ) (c_nodes nc_nodes : List Node2D)
    (debugMode : Bool) : Option (List (ℤ × ℤ)) :=
  match nc_nodes with
  | [] => none
  | t :: ts =>
      some ((withRanks 0 c_nodes).flatMap fun p =>
        perSourceEdges dist t ts (t :: ts).length p.1 p.2 debugMode)

/-- Modelled from the spec: the first element of minimum f-value of a list, the target
with minimum weighted distance where ties are broken by iteration order. -/
def firstMin (f : Node2D → ℚ) (l : List Node2D) : Option Node2D :=
  l.find? fun a => l.all fun b => decide (f a ≤ f b)

/-- Modelled from the spec: the nearest target of a source node cp is the first target
of minimum weighted distance to cp. -/
def specNearest (dist : Node2D → Node2D → ℚ) (nc_nodes : List Node2D) (cp : Node2D) :
    Option Node2D :=
  firstMin (fun a => dist a cp) nc_nodes

/-- Modelled from the spec: the second-nearest target is the first minimum among the
remaining targets excluding the nearest node; none when no target differs from it. -/
def specSecondNearest (dist : Node2D → Node2D → ℚ) (nc_nodes : List Node2D)
    (cp : Node2D) : Option Node2D :=
  (specNearest dist nc_nodes cp).bind fun m =>
    firstMin (fun a => dist a cp) (nc_nodes.filter fun x => !decide (x = m))

/-- Modelled from the spec: the edges one source node contributes. In debug mode two
edges join the nearest and second-nearest targets to the source, whose id is offset by
the target count; in normal mode a single edge joins nearest to second nearest. Edges
are recorded canonically with the smaller endpoint first, as the data model requires. -/
def specPerSourceEdges (dist : Node2D → Node2D → ℚ) (nc_nodes : List Node2D)
    (clauseIndex : ℕ) (cp : Node2D) (debugMode : Bool) : Option (List (ℤ × ℤ)) :=
  (specNearest dist nc_nodes cp).bind fun nearest =>
    (specSecondNearest dist nc_nodes cp).map fun secondNearest =>
      if debugMode then
        [canonPair nearest.index ((nc_nodes.length : ℤ) + (clauseIndex : ℤ)),
         canonPair secondNearest.index ((nc_nodes.length : ℤ) + (clauseIndex : ℤ))]
      else
        [canonPair nearest.index secondNearest.index]

/-- Concatenation of the spec-side per-source edge lists over the ranked sources. -/
def specEdgesFrom (dist : Node2D → Node2D → ℚ) (nc_nodes : List Node2D)
    (debugMode : Bool) : List (ℕ × Node2D) → Option (List (ℤ × ℤ))
  | [] => some []
  | p :: rest =>
      (specPerSourceEdges dist nc_nodes p.1 p.2 debugMode).bind fun es =>
        (specEdgesFrom dist nc_nodes debugMode rest).map fun tail => es ++ tail

/-- Modelled from the spec: the union over source nodes of the per-source emitted
edges, in source order. -/
def specGenerateEdges (dist : Node2D → Node2D → ℚ) (c_nodes nc_nodes : List Node2D)
    (debugMode : Bool) : Option (List (ℤ × ℤ)) :=
  specEdgesFrom dist nc_nodes debugMode (withRanks 0 c_nodes)

/-- A concrete source (clause) node used in concrete instances. -/
def cNode : Node2D := ⟨[0, 0], 1, 7⟩

/-- A concrete target (non-clause) node used in concrete instances. -/
def tNode : Node2D := ⟨[0, 0], 1, 5⟩

/-- A second concrete target node, distinct from tNode. -/
def tNode2 : Node2D := ⟨[1, 0], 1, 3⟩

/-- A concrete weighted-distance function for concrete instances. -/
def constDist : Node2D → Node2D → ℚ := fun _ _ => 0

/-- One step of std::default_random_engine, which is minstd_rand0 in libstdc++:
a Lehmer generator with multiplier 16807 and modulus 2147483647. -/
def engineStep (s : ℕ) : ℕ := (16807 * s) % 2147483647

/-- Engine state after k steps from a given seed; seeding maps a seed congruent to 0
to 1 as the standard requires. -/
def engineState (seed : ℕ) : ℕ → ℕ
  | 0 => if seed % 2147483647 = 0 then 1 else seed % 2147483647
  | k + 1 => engineStep (engineState seed k)

/-- Per-thread engine seed selection of generateWeights and generatePositions
(Generator.cpp lines 24 and 43): base seed plus thread id when the base seed is
non-negative, otherwise a value from std::random_device, modelled as an unconstrained
per-thread input. -/
def threadSeed (baseSeed : ℤ) (tid : ℕ) (device : ℕ → ℕ) : ℕ :=
  if 0 ≤ baseSeed then (baseSeed + tid).toNat else device tid

/-- Thread-count selection of the samplers (Generator.cpp lines 18 and 37). -/
def numThreads (parallel : Bool) (maxThreads n : ℕ) : ℕ :=
  if parallel then max 1 (min maxThreads (n / 10000)) else 1

/-- Chunk size of the static OpenMP schedule: the iteration range is split into
contiguous chunks of this size, one per thread. -/
def chunkSize (n threads : ℕ) : ℕ := (n + threads - 1) / threads

/-- Shallow embedding of generateWeights (Generator.cpp lines 17-34). Each entry is a
transform of the owning thread's next engine draw; the inverse-CDF weight transform is
double-valued in the source and is abstracted as the parameter F applied to the raw
draw, which preserves everything the claims about this function state. -/
def generateWeights (F : ℕ → ℚ) (n : ℕ) (weightSeed : ℤ) (parallel : Bool)
    (maxThreads : ℕ) (device : ℕ → ℕ) : List ℚ :=
  let threads := numThreads parallel maxThreads n
  let cs := chunkSize n threads
  (List.range n).map fun i =>
    F (engineState (threadSeed weightSeed (i / cs) device) (i % cs + 1))

/-- Shallow embedding of generatePositions (Generator.cpp lines 36-53): dimension
uniform draws per node, same per-thread stream discipline as generateWeights. -/
def generatePositions (F : ℕ → ℚ) (n dimension : ℕ) (positionSeed : ℤ)
    (parallel : Bool) (maxThreads : ℕ) (device : ℕ → ℕ) : List (List ℚ) :=
  let threads := numThreads parallel maxThreads n
  let cs := chunkSize n threads
  (List.range n).map fun i =>
    (List.range dimension).map fun d =>
      F (engineState (threadSeed positionSeed (i / cs) device) ((i % cs) * dimension + d + 1))

/-- Point payloads stored by the RadiusLayer. The hypergirgs Point record lives outside
the provided sources and the index never inspects it, so it is modelled as a natural
number. -/
abbrev Point := ℕ

/-- Modelled from the spec: the CellHierarchy collaborator (AngleHelper) is out of the
provided sources; only its interface is specified, three pure functions giving the cell
count of a level, the id of the first cell of a level and the owning cell of an angular
coordinate at a level. The embedding is parameterized by such an interface record. -/
structure CellHierarchy where
  numCellsInLevel : ℕ → ℕ
  firstCellOfLevel : ℕ → ℕ
  cellForPoint : ℚ → ℕ → ℕ

/-- The RadiusLayer record (RadiusLayer.h): the radius band, the finest level, the
per-cell exclusive prefix sums over target-level cells and the bucketed points. -/
structure RadiusLayer where
  r_min : ℚ
  r_max : ℚ
  target_level : ℕ
  prefix_sums : List ℕ
  points : List Point

/-- Increment a counter array, modelled as a function, at one cell. -/
def bump (f : ℕ → ℕ) (c : ℕ) : ℕ → ℕ := fun x => if x = c then f x + 1 else f x

/-- The first counting pass of the RadiusLayer constructor (RadiusLayer.cpp lines
23-27): per-cell occurrence counts of a list of cells. -/
def countCells : List ℕ → ℕ → ℕ
  | [] => fun _ => 0
  | c :: rest => bump (countCells rest) c

/-- The in-place exclusive prefix-sum pass of the constructor (lines 31-38): each
entry becomes the running sum of the entries before it. -/
def exclScan (s : ℕ) : List ℕ → List ℕ
  | [] => []
  | v :: rest => s :: exclScan (s + v) rest

/-- The point-placement pass of the constructor (lines 43-48): each node's point is
written at the cell's prefix-sum offset plus the per-cell insertion counter, which is
then incremented; the backing array is modelled as a function updated pointwise. -/
def fillLoop (cellOf : ℕ → ℕ) (pts : ℕ → Point) (pfx : ℕ → ℕ) :
    List ℕ → (ℕ → ℕ) → (ℕ → Point) → ℕ → Point
  | [], _, mp => mp
  | nd :: rest, inserted, mp =>
      fillLoop cellOf pts pfx rest (bump inserted (cellOf nd))
        (Function.update mp (pfx (cellOf nd) + inserted (cellOf nd)) (pts nd))

/-- The number of nodes of a list whose cell is c. -/
def cntCell (cellOf : ℕ → ℕ) (l : List ℕ) (c : ℕ) : ℕ :=
  (l.filter fun nd => cellOf nd = c).length

/-- The exclusive prefix sum of a counter function: the total count of all cells
before c. -/
def cellStart (counts : ℕ → ℕ) (c : ℕ) : ℕ := ((List.range c).map counts).sum

/-- Shallow embedding of the RadiusLayer constructor (RadiusLayer.cpp lines 12-49):
count the points of every finest-level cell, replace the counts by their exclusive
prefix sums with a final sentinel, then place the points by a stable counting sort.
The angle and point vectors indexed by node id are modelled as functions. -/
def RadiusLayer.build (H : CellHierarchy) (r_min r_max : ℚ) (targetLevel : ℕ)
    (nodes : List ℕ) (angles : ℕ → ℚ) (pts : ℕ → Point) : RadiusLayer :=
  let cellsInLevel := H.numCellsInLevel targetLevel
  let cellOf : ℕ → ℕ := fun nd => H.cellForPoint (angles nd) targetLevel
  let counts := countCells (nodes.map cellOf)
  let ps := exclScan 0 ((List.range (cellsInLevel + 1)).map counts)
  let mp := fillLoop cellOf pts (fun c => ps.getD c 0) nodes (fun _ => 0) (fun _ => 0)
  { r_min := r_min, r_max := r_max, target_level := targetLevel,
    prefix_sums := ps,
    points := (List.range (ps.getD cellsInLevel 0)).map mp }

/-- Shallow embedding of RadiusLayer::pointsInCell (RadiusLayer.cpp lines 51-67):
map the queried cell to its contiguous block of target-level descendants and take the
prefix-sum difference, written exactly as the two-part difference of the source. -/
def RadiusLayer.pointsInCell (L : RadiusLayer) (H : CellHierarchy)
    (cell level : ℕ) : ℤ :=
  let descendants := H.numCellsInLevel (L.target_level - level)
  let localIndexCell := cell - H.firstCellOfLevel level
  let b := localIndexCell * descendants
  let e := b + descendants - 1
  ((L.prefix_sums.getD e 0 : ℤ) - (L.prefix_sums.getD b 0 : ℤ))
    + ((L.prefix_sums.getD (e + 1) 0 : ℤ) - (L.prefix_sums.getD e 0 : ℤ))

/-- Shallow embedding of RadiusLayer::kthPoint (RadiusLayer.cpp lines 69-80): the k-th
stored point of the descendant block, counted from the block's prefix-sum offset. The
source takes k as an int whose callers guarantee it non-negative; it is a natural
number here. -/
def RadiusLayer.kthPoint (L : RadiusLayer) (H : CellHierarchy)
    (cell level : ℕ) (k : ℕ) : Point :=
  let descendants := H.numCellsInLevel (L.target_level - level)
  let localIndexCell := cell - H.firstCellOfLevel level
  let b := localIndexCell * descendants
  L.points.getD (L.prefix_sums.getD b 0 + k) 0

/-- Modelled from the spec: a cell at a level owns the contiguous block of target-level
descendant cells starting at its local index times the descendant count, of that same
length; a target-level cell tcell descends from cell exactly when it lies in this
block. -/
def descendsTo (H : CellHierarchy) (targetLevel tcell cell level : ℕ) : Bool :=
  decide ((cell - H.firstCellOfLevel level) * H.numCellsInLevel (targetLevel - level) ≤ tcell) &&
  decide (tcell < (cell - H.firstCellOfLevel level + 1) * H.numCellsInLevel (targetLevel - level))

/-- A concrete cell hierarchy realizing the spec scenario: the target level 2 has
three cells, level 1 has two cells whose first covers target cells 0 and 1, and the
cell numbering of every level starts at 0. -/
def scenarioH : CellHierarchy where
  numCellsInLevel := fun L => if L = 2 then 3 else if L = 1 then 2 else 1
  firstCellOfLevel := fun _ => 0
  cellForPoint := fun a _ => if a < 2 then 0 else if a < 3 then 1 else 2

/-- The layer of the spec scenario: four nodes whose finest-level cells are
0, 0, 1, 2. -/
def scenarioLayer : RadiusLayer :=
  RadiusLayer.build scenarioH 0 1 2 [0, 1, 2, 3] (fun nd => (nd : ℚ)) (fun nd => nd + 10)

/-! ### Theorems about the edge deduplication pass -/

/-- Claim C1: REFUTED BY THE CODE (code bug). deduplicateEdges never emits the run that
is still open when the scan ends, and it does not canonicalize pairs itself, so on the
spec scenario input [(2,1),(1,2),(3,4)] it returns [(1,2,1),(2,1,1)] instead of the
specified [(1,2,2),(3,4,1)]: the pair (2,1) stays uncanonicalized and the final run
(3,4) is dropped, contradicting the function's own stated purpose of collecting all
runs of equal edges. -/
theorem deduplicateEdges_scenario_drops_last_run :
    deduplicateEdges [(2, 1), (1, 2), (3, 4)] = some [(1, 2, 1), (2, 1, 1)] ∧
    some [((1 : ℤ), (2 : ℤ), (1 : ℤ)), (2, 1, 1)] ≠
      some [((1 : ℤ), (2 : ℤ), (2 : ℤ)), (3, 4, 1)] := by
  exact ⟨by decide, by decide⟩

/-- Claim C4: REFUTED BY THE CODE (code bug). Expanding the triples produced by
deduplicateEdges and re-sorting does not reproduce the canonicalized sorted input:
already on the single-edge list [(1,2)] the only run is dropped, the expansion is
empty, and the canonicalized sorted input is [(1,2)]. -/
theorem deduplicateEdges_roundtrip_fails :
    sortEdges (expandEdges ((deduplicateEdges [(1, 2)]).getD [])) = [] ∧
    sortEdges (canonEdges [(1, 2)]) = [((1 : ℤ), (2 : ℤ))] ∧
    ([] : List (ℤ × ℤ)) ≠ [((1 : ℤ), (2 : ℤ))] := by
  exact ⟨by decide, by decide, by decide⟩

/-- Claim C7: REFUTED BY THE CODE (code bug). deduplicateEdges performs no emptiness
check: on the empty list the source unconditionally reads edges[0], an out-of-bounds
access of the empty vector, modelled by the embedding as the none outcome rather than
an empty result or a labeled failure. -/
theorem deduplicateEdges_empty_input_unchecked :
    deduplicateEdges [] = none := by
  decide

/-- The insertion step produces a permutation of consing the element. -/
theorem insertEdge_perm (e : ℤ × ℤ) (l : List (ℤ × ℤ)) :
    (insertEdge e l).Perm (e :: l) := by
  induction l with
  | nil => exact List.Perm.refl _
  | cons x xs ih =>
      unfold insertEdge
      cases h : edgeLe e x
      · simp only [Bool.false_eq_true, if_false]
        exact ((ih.cons x).trans (List.Perm.swap e x xs))
      · simp only [if_true]
        exact List.Perm.refl _

/-- The modelled sort is a permutation of its input. -/
theorem sortEdges_perm (l : List (ℤ × ℤ)) : (sortEdges l).Perm l := by
  induction l with
  | nil => exact List.Perm.refl _
  | cons e es ih => exact (insertEdge_perm e (sortEdges es)).trans (ih.cons e)

/-- The lexicographic edge order is total. -/
theorem edgeLe_total (a b : ℤ × ℤ) : edgeLe a b = true ∨ edgeLe b a = true := by
  simp only [edgeLe, Bool.or_eq_true, Bool.and_eq_true, decide_eq_true_eq]
  omega

/-- The lexicographic edge order is transitive. -/
theorem edgeLe_trans {a b c : ℤ × ℤ} (h1 : edgeLe a b = true) (h2 : edgeLe b c = true) :
    edgeLe a c = true := by
  simp only [edgeLe, Bool.or_eq_true, Bool.and_eq_true, decide_eq_true_eq] at h1 h2 ⊢
  omega

/-- Membership in an insertion result comes from the element or the original list. -/
theorem mem_insertEdge {y e : ℤ × ℤ} {l : List (ℤ × ℤ)} (h : y ∈ insertEdge e l) :
    y = e ∨ y ∈ l := by
  induction l with
  | nil => simpa [insertEdge] using h
  | cons x xs ih =>
      unfold insertEdge at h
      cases hc : edgeLe e x <;> rw [hc] at h
      · simp only [Bool.false_eq_true, if_false, List.mem_cons] at h
        rcases h with rfl | h
        · exact Or.inr (List.mem_cons_self _ _)
        · rcases ih h with h' | h'
          · exact Or.inl h'
          · exact Or.inr (List.mem_cons_of_mem _ h')
      · simp only [if_true, List.mem_cons] at h
        rcases h with rfl | h
        · exact Or.inl rfl
        · exact Or.inr (by simpa using h)

/-- Inserting into a sorted list keeps it sorted. -/
theorem insertEdge_sorted (e : ℤ × ℤ) {l : List (ℤ × ℤ)}
    (h : l.Pairwise fun a b => edgeLe a b = true) :
    (insertEdge e l).Pairwise fun a b => edgeLe a b = true := by
  induction l with
  | nil => simp [insertEdge]
  | cons x xs ih =>
      rcases List.pairwise_cons.1 h with ⟨hx, hxs⟩
      unfold insertEdge
      cases hc : edgeLe e x
      · simp only [Bool.false_eq_true, if_false]
        refine List.pairwise_cons.2 ⟨?_, ih hxs⟩
        intro y hy
        rcases mem_insertEdge hy with rfl | hy'
        · rcases edgeLe_total y x with h' | h'
          · rw [hc] at h'; exact absurd h' (by simp)
          · exact h'
        · exact hx y hy'
      · simp only [if_true]
        refine List.pairwise_cons.2 ⟨?_, h⟩
        intro y hy
        rcases List.mem_cons.1 hy with rfl | hy'
        · exact hc
        · exact edgeLe_trans hc (hx y hy')

/-- The modelled sort produces a lexicographically sorted list. -/
theorem sortEdges_sorted (l : List (ℤ × ℤ)) :
    (sortEdges l).Pairwise fun a b => edgeLe a b = true := by
  induction l with
  | nil => simp [sortEdges]
  | cons e es ih => exact insertEdge_sorted e ih

/-- Claim C10: CONFIRMED. deduplicateEdges takes its argument by reference and sorts it
in place: after the call the caller's vector holds the same multiset of pairs as
before, rearranged in ascending lexicographic order. -/
theorem deduplicateEdges_sorts_argument (edges : List (ℤ × ℤ)) (h : edges ≠ []) :
    (deduplicateEdgesArgAfter edges).Perm edges ∧
    (deduplicateEdgesArgAfter edges).Pairwise fun a b => edgeLe a b = true :=
  ⟨sortEdges_perm edges, sortEdges_sorted edges⟩

/-- Witness for claim C10 at the concrete input [(3,1),(1,2)]. -/
theorem deduplicateEdges_sorts_argument_witness :
    [((3 : ℤ), (1 : ℤ)), (1, 2)] ≠ [] ∧
    ((deduplicateEdgesArgAfter [(3, 1), (1, 2)]).Perm [(3, 1), (1, 2)] ∧
      (deduplicateEdgesArgAfter [(3, 1), (1, 2)]).Pairwise fun a b => edgeLe a b = true) :=
  ⟨by decide, deduplicateEdges_sorts_argument [(3, 1), (1, 2)] (by decide)⟩

/-! ### Theorems about the edge sampler -/

/-- addEdge's canonicalization puts the smaller endpoint first. -/
theorem canonPair_le (u v : ℤ) : (canonPair u v).1 ≤ (canonPair u v).2 := by
  unfold canonPair
  split <;> simp <;> omega

/-- Claim C5: CORRECTED. Every raw edge emitted by generateEdges is canonical, u ≤ v;
but the claim's second half u ≠ v does not hold for every non-empty target list, see
the self-loop counterexample. This theorem proves the amended claim: every emitted
edge satisfies u ≤ v. -/
theorem generateEdges_edges_canonical (dist : Node2D → Node2D → ℚ)
    (c_nodes nc_nodes : List Node2D) (debugMode : Bool) (edges : List (ℤ × ℤ))
    (h : generateEdges dist c_nodes nc_nodes debugMode = some edges) :
    ∀ e ∈ edges, e.1 ≤ e.2 := by
  cases nc_nodes with
  | nil => simp [generateEdges] at h
  | cons t ts =>
      simp only [generateEdges, Option.some_inj] at h
      subst h
      intro e he
      rw [List.mem_flatMap] at he
      obtain ⟨p, _, he⟩ := he
      simp only [perSourceEdges] at he
      cases debugMode <;> simp only [if_true, if_false, Bool.false_eq_true,
        List.mem_cons, List.mem_singleton, List.not_mem_nil, or_false] at he
      · rcases he with rfl
        exact canonPair_le _ _
      · rcases he with rfl | rfl <;> exact canonPair_le _ _

/-- Witness for claim C5 applying the theorem at a concrete instance. -/
theorem generateEdges_edges_canonical_witness :
    generateEdges constDist [cNode] [tNode, tNode2] false = some [(3, 5)] ∧
    ∀ e ∈ [((3 : ℤ), (5 : ℤ))], e.1 ≤ e.2 :=
  ⟨by decide,
   generateEdges_edges_canonical constDist [cNode] [tNode, tNode2] false [(3, 5)]
     (by decide)⟩

/-- Counterexample for claim C5 as stated: with a single target node the second-nearest
scan returns the nearest node itself, and in normal mode generateEdges emits the
self-loop (5,5), violating u ≠ v for a non-empty target list. -/
theorem generateEdges_emits_self_loop :
    generateEdges constDist [cNode] [tNode] false = some [(5, 5)] ∧
    ¬ ((5 : ℤ), (5 : ℤ)).1 ≠ ((5 : ℤ), (5 : ℤ)).2 := by
  exact ⟨by decide, by decide⟩

/-! ### Determinism of the samplers -/

/-- Claim C9: CONFIRMED. With a non-negative seed and parallel = false the outputs of
generateWeights and generatePositions depend on neither the random_device entropy nor
the machine's thread count: two runs with identical (n, transform, seed) inputs
produce identical output vectors. -/
theorem sampling_deterministic (F G : ℕ → ℚ) (n dimension : ℕ) (wseed pseed : ℤ)
    (mt1 mt2 : ℕ) (d1 d2 : ℕ → ℕ) (hw : 0 ≤ wseed) (hp : 0 ≤ pseed) :
    generateWeights F n wseed false mt1 d1 = generateWeights F n wseed false mt2 d2 ∧
    generatePositions G n dimension pseed false mt1 d1 =
      generatePositions G n dimension pseed false mt2 d2 := by
  constructor <;>
    simp only [generateWeights, generatePositions, numThreads, threadSeed,
      Bool.false_eq_true, if_false, if_pos hw, if_pos hp]

/-- Witness for claim C9 at a concrete instance with differing device entropy and
thread counts. -/
theorem sampling_deterministic_witness :
    (0 : ℤ) ≤ 5 ∧ (0 : ℤ) ≤ 2 ∧
    (generateWeights (fun k => (k : ℚ)) 3 5 false 2 (fun _ => 0) =
        generateWeights (fun k => (k : ℚ)) 3 5 false 7 (fun t => t + 42) ∧
      generatePositions (fun k => (k : ℚ)) 3 2 2 false 2 (fun _ => 0) =
        generatePositions (fun k => (k : ℚ)) 3 2 2 false 7 (fun t => t + 42)) :=
  ⟨by decide, by decide,
   sampling_deterministic (fun k => (k : ℚ)) (fun k => (k : ℚ)) 3 2 5 2 2 7
     (fun _ => 0) (fun t => t + 42) (by decide) (by decide)⟩

/-! ### The nearest and second-nearest scans match the spec's selection rule -/

/-- find? only depends on the predicate's values on the list. -/
theorem find?_congr {p q : Node2D → Bool} :
    ∀ (l : List Node2D), (∀ x ∈ l, p x = q x) → l.find? p = l.find? q := by
  intro l
  induction l with
  | nil => intro _; rfl
  | cons x xs ih =>
      intro h
      have hx := h x (List.mem_cons_self x xs)
      cases hp : p x
      · rw [List.find?_cons_of_neg _ (by simp [hp]),
          List.find?_cons_of_neg _ (by simp [← hx, hp])]
        exact ih fun z hz => h z (List.mem_cons_of_mem x hz)
      · rw [List.find?_cons_of_pos _ hp, List.find?_cons_of_pos _ (hx ▸ hp)]

/-- One step of the min_element fold preserves the first-minimum selection: the loser
among the first two elements can be discarded. -/
theorem firstMin_cons_cons (f : Node2D → ℚ) (b y : Node2D) (ys : List Node2D) :
    firstMin f (b :: y :: ys) =
      firstMin f ((if decide (f y < f b) then y else b) :: ys) := by
  by_cases hyb : f y < f b
  · rw [if_pos (decide_eq_true hyb)]
    unfold firstMin
    have hpredb : ¬ ((b :: y :: ys).all fun c => decide (f b ≤ f c)) = true := by
      simp only [List.all_cons, Bool.and_eq_true, decide_eq_true_eq]
      rintro ⟨-, h2, -⟩
      exact absurd h2 (not_le.2 hyb)
    rw [@List.find?_cons_of_neg Node2D
      (fun a => (b :: y :: ys).all fun c => decide (f a ≤ f c)) b (y :: ys) hpredb]
    apply find?_congr
    intro x _
    simp only [List.all_cons]
    cases hxy : decide (f x ≤ f y)
    · simp [hxy]
    · have h1 : decide (f x ≤ f b) = true :=
        decide_eq_true (le_trans (of_decide_eq_true hxy) (le_of_lt hyb))
      simp [hxy, h1]
  · have hby : f b ≤ f y := not_lt.1 hyb
    rw [if_neg (by simpa using hyb)]
    unfold firstMin
    by_cases hall : ∀ z ∈ ys, f b ≤ f z
    · have hp1 : ((b :: y :: ys).all fun c => decide (f b ≤ f c)) = true := by
        simp only [List.all_cons, Bool.and_eq_true, decide_eq_true_eq,
          List.all_eq_true]
        exact ⟨le_refl _, hby, fun z hz => hall z hz⟩
      have hp2 : ((b :: ys).all fun c => decide (f b ≤ f c)) = true := by
        simp only [List.all_cons, Bool.and_eq_true, decide_eq_true_eq,
          List.all_eq_true]
        exact ⟨le_refl _, fun z hz => hall z hz⟩
      rw [@List.find?_cons_of_pos Node2D
        (fun a => (b :: y :: ys).all fun c => decide (f a ≤ f c)) b (y :: ys) hp1,
        @List.find?_cons_of_pos Node2D
        (fun a => (b :: ys).all fun c => decide (f a ≤ f c)) b ys hp2]
    · push_neg at hall
      obtain ⟨z, hz, hzb⟩ := hall
      have h1 : ¬ ((b :: y :: ys).all fun c => decide (f b ≤ f c)) = true := by
        simp only [List.all_cons, Bool.and_eq_true, decide_eq_true_eq,
          List.all_eq_true]
        rintro ⟨-, -, hys⟩
        exact absurd (hys z hz) (not_le.2 hzb)
      have h2 : ¬ ((b :: y :: ys).all fun c => decide (f y ≤ f c)) = true := by
        simp only [List.all_cons, Bool.and_eq_true, decide_eq_true_eq,
          List.all_eq_true]
        rintro ⟨-, -, hys⟩
        exact absurd (hys z hz) (not_le.2 (lt_of_lt_of_le hzb hby))
      have h3 : ¬ ((b :: ys).all fun c => decide (f b ≤ f c)) = true := by
        simp only [List.all_cons, Bool.and_eq_true, decide_eq_true_eq,
          List.all_eq_true]
        rintro ⟨-, hys⟩
        exact absurd (hys z hz) (not_le.2 hzb)
      rw [@List.find?_cons_of_neg Node2D
        (fun a => (b :: y :: ys).all fun c => decide (f a ≤ f c)) b (y :: ys) h1,
        @List.find?_cons_of_neg Node2D
        (fun a => (b :: y :: ys).all fun c => decide (f a ≤ f c)) y ys h2,
        @List.find?_cons_of_neg Node2D
        (fun a => (b :: ys).all fun c => decide (f a ≤ f c)) b ys h3]
      apply find?_congr
      intro x _
      simp only [List.all_cons]
      cases hxb : decide (f x ≤ f b)
      · simp [hxb]
      · cases hys2 : ys.all fun c => decide (f x ≤ f c)
        · simp [hxb, hys2]
        · have h4 : decide (f x ≤ f y) = true :=
            decide_eq_true (le_trans (of_decide_eq_true hxb) hby)
          simp [hxb, hys2, h4]

/-- The min_element fold computes exactly the spec's first element of minimum value. -/
theorem firstMin_eq_fold (f : Node2D → ℚ) :
    ∀ (l : List Node2D) (b : Node2D),
      firstMin f (b :: l) =
        some (minElemAccBy (fun a b' => decide (f a < f b')) b l) := by
  intro l
  induction l with
  | nil =>
      intro b
      simp [firstMin, minElemAccBy]
  | cons y ys ih =>
      intro b
      rw [firstMin_cons_cons, ih]
      rfl

/-- With an accumulator different from the excluded node m, the second-nearest
comparator fold is the plain distance fold over the list with all copies of m
removed. -/
theorem minElemAccBy_trick_ne (f : Node2D → ℚ) (m : Node2D) :
    ∀ (l : List Node2D) (b : Node2D), b ≠ m →
      minElemAccBy (fun a b' => if a = m then false else if b' = m then true
        else decide (f a < f b')) b l
        = minElemAccBy (fun a b' => decide (f a < f b')) b
            (l.filter fun x => !decide (x = m)) := by
  intro l
  induction l with
  | nil => intro b _; rfl
  | cons y ys ih =>
      intro b hb
      by_cases hy : y = m
      · have hcomp : (fun a b' => if a = m then false else if b' = m then true
            else decide (f a < f b')) y b = false := by
          simp only [if_pos hy]
        have hfil : ((y :: ys).filter fun x => !decide (x = m))
            = ys.filter fun x => !decide (x = m) := by
          rw [List.filter_cons, if_neg (by simp [hy])]
        rw [hfil]
        simp only [minElemAccBy, hcomp, Bool.false_eq_true, if_false]
        exact ih b hb
      · have hcomp : (fun a b' => if a = m then false else if b' = m then true
            else decide (f a < f b')) y b = decide (f y < f b) := by
          simp only [if_neg hy, if_neg hb]
        have hfil : ((y :: ys).filter fun x => !decide (x = m))
            = y :: (ys.filter fun x => !decide (x = m)) := by
          rw [List.filter_cons, if_pos (by simp [hy])]
        rw [hfil]
        simp only [minElemAccBy, hcomp]
        by_cases hlt : f y < f b
        · rw [if_pos (decide_eq_true hlt)]
          exact ih y hy
        · rw [if_neg (by simp [hlt])]
          exact ih b hb

/-- With the excluded node m as accumulator and no element different from m, the
second-nearest comparator fold returns m itself. -/
theorem minElemAccBy_trick_eq_nil (f : Node2D → ℚ) (m : Node2D) :
    ∀ l : List Node2D, (l.filter fun x => !decide (x = m)) = [] →
      minElemAccBy (fun a b' => if a = m then false else if b' = m then true
        else decide (f a < f b')) m l = m := by
  intro l
  induction l with
  | nil => intro _; rfl
  | cons y ys ih =>
      intro hfil
      by_cases hy : y = m
      · rw [List.filter_cons, if_neg (by simp [hy])] at hfil
        simp only [minElemAccBy, if_pos hy, Bool.false_eq_true, if_false]
        exact ih hfil
      · exfalso
        rw [List.filter_cons, if_pos (by simp [hy])] at hfil
        exact List.cons_ne_nil _ _ hfil

/-- With the excluded node m as accumulator and a first element c different from m,
the second-nearest comparator fold restarts the plain fold at c. -/
theorem minElemAccBy_trick_eq_cons (f : Node2D → ℚ) (m : Node2D) :
    ∀ (l : List Node2D) (c : Node2D) (cs : List Node2D),
      (l.filter fun x => !decide (x = m)) = c :: cs →
      minElemAccBy (fun a b' => if a = m then false else if b' = m then true
        else decide (f a < f b')) m l
        = minElemAccBy (fun a b' => decide (f a < f b')) c cs := by
  intro l
  induction l with
  | nil => intro c cs h; exact absurd h (by simp)
  | cons y ys ih =>
      intro c cs hfil
      by_cases hy : y = m
      · rw [List.filter_cons, if_neg (by simp [hy])] at hfil
        simp only [minElemAccBy, if_pos hy, Bool.false_eq_true, if_false]
        exact ih c cs hfil
      · rw [List.filter_cons, if_pos (by simp [hy])] at hfil
        injection hfil with hyc hcs
        subst hyc
        simp only [minElemAccBy, if_neg hy, if_true]
        rw [minElemAccBy_trick_ne f m ys y hy, hcs]

/-- The second-nearest comparator fold over the whole target list equals the plain
fold started at the first target different from m, when such a target exists. -/
theorem trick_fold_eq (f : Node2D → ℚ) (m t : Node2D) (ts : List Node2D)
    (c : Node2D) (cs : List Node2D)
    (hcs : ((t :: ts).filter fun x => !decide (x = m)) = c :: cs) :
    minElemAccBy (fun a b' => if a = m then false else if b' = m then true
      else decide (f a < f b')) t ts
      = minElemAccBy (fun a b' => decide (f a < f b')) c cs := by
  by_cases ht : t = m
  · rw [List.filter_cons, if_neg (by simp [ht])] at hcs
    rw [ht]
    exact minElemAccBy_trick_eq_cons f m ts c cs hcs
  · rw [List.filter_cons, if_pos (by simp [ht])] at hcs
    injection hcs with htc hcs2
    subst htc
    rw [minElemAccBy_trick_ne f m ts t ht, hcs2]

/-- When some target differs from the nearest m, the code's second-nearest scan
computes the spec's first minimum among the targets different from m. -/
theorem trick_eq_firstMin (f : Node2D → ℚ) (t : Node2D) (ts : List Node2D)
    (m : Node2D)
    (hne : ((t :: ts).filter fun x => !decide (x = m)) ≠ []) :
    firstMin f ((t :: ts).filter fun x => !decide (x = m))
      = some (minElemAccBy (fun a b' => if a = m then false else if b' = m then true
          else decide (f a < f b')) t ts) := by
  cases hcs : (t :: ts).filter fun x => !decide (x = m) with
  | nil => exact absurd hcs hne
  | cons c cs =>
      rw [firstMin_eq_fold f cs c, trick_fold_eq f m t ts c cs hcs]

/-- For a target list containing two distinct nodes, the code's per-source edges agree
with the spec's nearest / second-nearest description. -/
theorem specPerSourceEdges_eq_code (dist : Node2D → Node2D → ℚ) (t : Node2D)
    (ts : List Node2D) (k : ℕ) (cp : Node2D) (dm : Bool)
    (hd : ∃ a ∈ t :: ts, ∃ b ∈ t :: ts, a ≠ b) :
    specPerSourceEdges dist (t :: ts) k cp dm
      = some (perSourceEdges dist t ts (t :: ts).length k cp dm) := by
  have hnear : specNearest dist (t :: ts) cp
      = some (minElemAccBy (fun a b' => decide (dist a cp < dist b' cp)) t ts) :=
    firstMin_eq_fold (fun a => dist a cp) ts t
  set m := minElemAccBy (fun a b' => decide (dist a cp < dist b' cp)) t ts with hm
  obtain ⟨a, ha, b, hb, hab⟩ := hd
  have hne : ((t :: ts).filter fun x => !decide (x = m)) ≠ [] := by
    have hor : a ≠ m ∨ b ≠ m := by
      by_cases h1 : a = m
      · right
        intro h2
        exact hab (h1.trans h2.symm)
      · left
        exact h1
    rcases hor with h | h
    · exact List.ne_nil_of_mem (List.mem_filter.2 ⟨ha, by simp [h]⟩)
    · exact List.ne_nil_of_mem (List.mem_filter.2 ⟨hb, by simp [h]⟩)
  have hsec : specSecondNearest dist (t :: ts) cp
      = some (minElemAccBy (fun a b' => if a = m then false else if b' = m then true
          else decide (dist a cp < dist b' cp)) t ts) := by
    unfold specSecondNearest
    rw [hnear]
    simp only [Option.some_bind]
    exact trick_eq_firstMin (fun a => dist a cp) t ts m hne
  unfold specPerSourceEdges
  rw [hnear, hsec]
  rfl

/-- Over any ranked source list, the spec-side union of per-source edges is the code's
concatenation. -/
theorem specEdgesFrom_eq_code (dist : Node2D → Node2D → ℚ) (t : Node2D)
    (ts : List Node2D) (dm : Bool)
    (hd : ∃ a ∈ t :: ts, ∃ b ∈ t :: ts, a ≠ b) :
    ∀ ranked : List (ℕ × Node2D),
      specEdgesFrom dist (t :: ts) dm ranked
        = some (ranked.flatMap fun p =>
            perSourceEdges dist t ts (t :: ts).length p.1 p.2 dm) := by
  intro ranked
  induction ranked with
  | nil => rfl
  | cons p rest ih =>
      simp only [specEdgesFrom]
      rw [specPerSourceEdges_eq_code dist t ts p.1 p.2 dm hd, ih]
      rfl

/-- Claim C8: CORRECTED. Whenever the target list contains two distinct nodes, the
edge multiset returned by generateEdges is exactly the union over source nodes of the
per-source edges described by the spec: nearest is the first target of minimum
weighted distance, second nearest is the first minimum among the targets differing
from it, debug mode contributes the two offset edges and normal mode the single
nearest-to-second edge. The two-distinct-targets hypothesis is what the singleton
counterexample forces: with it removed the claim fails. -/
theorem generateEdges_matches_spec_union (dist : Node2D → Node2D → ℚ)
    (c_nodes nc_nodes : List Node2D) (dm : Bool)
    (hd : ∃ a ∈ nc_nodes, ∃ b ∈ nc_nodes, a ≠ b) :
    Option.map (fun l => (l : Multiset (ℤ × ℤ)))
        (generateEdges dist c_nodes nc_nodes dm)
      = Option.map (fun l => (l : Multiset (ℤ × ℤ)))
          (specGenerateEdges dist c_nodes nc_nodes dm) := by
  cases nc_nodes with
  | nil =>
      obtain ⟨a, ha, -⟩ := hd
      exact absurd ha (List.not_mem_nil a)
  | cons t ts =>
      rw [specGenerateEdges, specEdgesFrom_eq_code dist t ts dm hd (withRanks 0 c_nodes)]
      rfl

/-- Witness for claim C8 at a concrete instance with two distinct targets. -/
theorem generateEdges_matches_spec_union_witness :
    (∃ a ∈ [tNode, tNode2], ∃ b ∈ [tNode, tNode2], a ≠ b) ∧
    Option.map (fun l => (l : Multiset (ℤ × ℤ)))
        (generateEdges constDist [cNode] [tNode, tNode2] false)
      = Option.map (fun l => (l : Multiset (ℤ × ℤ)))
          (specGenerateEdges constDist [cNode] [tNode, tNode2] false) :=
  ⟨by decide,
   generateEdges_matches_spec_union constDist [cNode] [tNode, tNode2] false (by decide)⟩

/-- Counterexample for claim C8 as stated: with the single target tNode the code emits
the self-loop (5,5) while the spec-side description has no second-nearest target at
all, so the claimed multiset equality fails for a non-empty target list. -/
theorem generateEdges_spec_union_fails_single_target :
    Option.map (fun l => (l : Multiset (ℤ × ℤ)))
        (generateEdges constDist [cNode] [tNode] false)
      ≠ Option.map (fun l => (l : Multiset (ℤ × ℤ)))
          (specGenerateEdges constDist [cNode] [tNode] false) := by
  have h1 : generateEdges constDist [cNode] [tNode] false = some [(5, 5)] := by decide
  have h2 : specGenerateEdges constDist [cNode] [tNode] false = none := by decide
  rw [h1, h2]
  simp

/-! ### Theorems about the RadiusLayer counting sort -/

/-- The counting pass counts exactly the nodes falling in each cell. -/
theorem countCells_eq_cntCell (cellOf : ℕ → ℕ) :
    ∀ (l : List ℕ) (c : ℕ), countCells (l.map cellOf) c = cntCell cellOf l c := by
  intro l
  induction l with
  | nil => intro c; rfl
  | cons x xs ih =>
      intro c
      show bump (countCells (xs.map cellOf)) (cellOf x) c = _
      unfold cntCell bump
      rw [List.filter_cons]
      by_cases h : cellOf x = c
      · rw [if_pos h.symm, if_pos (by simp [h]), List.length_cons, ih c]
        rfl
      · rw [if_neg fun hc => h hc.symm, if_neg (by simp [h])]
        exact ih c

/-- The exclusive scan preserves the length. -/
theorem exclScan_length (l : List ℕ) : ∀ s, (exclScan s l).length = l.length := by
  induction l with
  | nil => intro s; rfl
  | cons v vs ih => intro s; simp [exclScan, ih]

/-- The exclusive scan at position i is the start value plus the sum of the first
i entries. -/
theorem exclScan_getD (l : List ℕ) :
    ∀ (s i : ℕ), i < l.length → (exclScan s l).getD i 0 = s + (l.take i).sum := by
  induction l with
  | nil => intro s i h; simp at h
  | cons v vs ih =>
      intro s i h
      cases i with
      | zero => simp [exclScan]
      | succ j =>
          have hj : j < vs.length := by simpa using h
          show (exclScan (s + v) vs).getD j 0 = _
          rw [ih (s + v) j hj, List.take_succ_cons, List.sum_cons]
          omega

/-- getD of a mapped range evaluates the function. -/
theorem getD_range_map {α : Type} (f : ℕ → α) (d : α) (n i : ℕ) (h : i < n) :
    ((List.range n).map f).getD i d = f i := by
  have hlen : i < ((List.range n).map f).length := by simpa using h
  rw [List.getD_eq_getElem _ _ hlen, List.getElem_map, List.getElem_range]

/-- The exclusive prefix sums step by the cell count. -/
theorem cellStart_succ (counts : ℕ → ℕ) (c : ℕ) :
    cellStart counts (c + 1) = cellStart counts c + counts c := by
  unfold cellStart
  rw [List.range_succ, List.map_append, List.sum_append]
  simp

/-- The exclusive prefix sums are monotone. -/
theorem cellStart_le (counts : ℕ → ℕ) (c c' : ℕ) (h : c ≤ c') :
    cellStart counts c ≤ cellStart counts c' := by
  obtain ⟨d, rfl⟩ := Nat.exists_eq_add_of_le h
  clear h
  induction d with
  | zero => simp
  | succ k ih =>
      have he : c + (k + 1) = (c + k) + 1 := by omega
      rw [he, cellStart_succ]
      exact le_trans ih (Nat.le_add_right _ _)

/-- The prefix sums of the constructed layer evaluate to the exclusive cell starts. -/
theorem scanList_getD (counts : ℕ → ℕ) (K c : ℕ) (hc : c < K + 1) :
    (exclScan 0 ((List.range (K + 1)).map counts)).getD c 0 = cellStart counts c := by
  rw [exclScan_getD _ 0 c (by simpa using hc)]
  rw [← List.map_take, List.take_range]
  have hm : c ⊓ (K + 1) = c := by omega
  rw [hm, Nat.zero_add]
  rfl

/-- Counting a disjoint union of Boolean predicates splits the count. -/
theorem countP_or_split (p q r : ℕ → Bool)
    (hr : ∀ x, r x = true ↔ (p x = true ∨ q x = true))
    (hpq : ∀ x, ¬(p x = true ∧ q x = true)) :
    ∀ l : List ℕ, l.countP r = l.countP p + l.countP q := by
  intro l
  induction l with
  | nil => rfl
  | cons x xs ih =>
      simp only [List.countP_cons]
      by_cases hp : p x = true
      · have hq : ¬ q x = true := fun hh => hpq x ⟨hp, hh⟩
        have hrx : r x = true := (hr x).2 (Or.inl hp)
        simp [hp, hq, hrx, ih]
        omega
      · by_cases hq : q x = true
        · have hrx : r x = true := (hr x).2 (Or.inr hq)
          simp [hp, hq, hrx, ih]
          omega
        · have hrx : ¬ r x = true := fun hh => by
            rcases (hr x).1 hh with h' | h'
            · exact hp h'
            · exact hq h'
          simp [hp, hq, hrx, ih]

/-- The prefix-sum difference over a contiguous block of cells counts the nodes whose
cell lies in the block. -/
theorem cellStart_interval (cellOf : ℕ → ℕ) (nodes : List ℕ) :
    ∀ (D b : ℕ),
      cellStart (cntCell cellOf nodes) (b + D)
        = cellStart (cntCell cellOf nodes) b
          + (nodes.filter fun nd =>
              decide (b ≤ cellOf nd) && decide (cellOf nd < b + D)).length := by
  intro D
  induction D with
  | zero =>
      intro b
      have hz : (nodes.filter fun nd =>
          decide (b ≤ cellOf nd) && decide (cellOf nd < b + 0)).length = 0 := by
        rw [List.length_eq_zero, List.filter_eq_nil]
        intro nd _
        simp only [Bool.and_eq_true, decide_eq_true_eq, not_and]
        omega
      rw [hz]
      simp
  | succ D ih =>
      intro b
      have he : b + (D + 1) = (b + D) + 1 := by omega
      rw [he, cellStart_succ, ih b]
      have hsplit : (nodes.filter fun nd =>
            decide (b ≤ cellOf nd) && decide (cellOf nd < b + (D + 1))).length
          = (nodes.filter fun nd =>
              decide (b ≤ cellOf nd) && decide (cellOf nd < b + D)).length
            + (nodes.filter fun nd => decide (cellOf nd = b + D)).length := by
        rw [← List.countP_eq_length_filter, ← List.countP_eq_length_filter,
          ← List.countP_eq_length_filter]
        apply countP_or_split
        · intro x
          simp only [Bool.and_eq_true, decide_eq_true_eq]
          omega
        · intro x
          simp only [Bool.and_eq_true, decide_eq_true_eq, not_and]
          omega
      rw [← he, hsplit]
      have hcnt : cntCell cellOf nodes (b + D)
          = (nodes.filter fun nd => decide (cellOf nd = b + D)).length := rfl
      omega

/-- Distinct in-range cell slots map to distinct positions in the backing array. -/
theorem cellStart_pos_ne (counts : ℕ → ℕ) (c1 c2 i1 i2 : ℕ)
    (h1 : i1 < counts c1) (h2 : i2 < counts c2) (hne : ¬(c1 = c2 ∧ i1 = i2)) :
    cellStart counts c1 + i1 ≠ cellStart counts c2 + i2 := by
  rcases Nat.lt_trichotomy c1 c2 with h | h | h
  · have ha : cellStart counts c1 + i1 < cellStart counts (c1 + 1) := by
      rw [cellStart_succ]
      omega
    have hb : cellStart counts (c1 + 1) ≤ cellStart counts c2 := cellStart_le counts _ _ h
    omega
  · subst h
    have : i1 ≠ i2 := fun hh => hne ⟨rfl, hh⟩
    omega
  · have ha : cellStart counts c2 + i2 < cellStart counts (c2 + 1) := by
      rw [cellStart_succ]
      omega
    have hb : cellStart counts (c2 + 1) ≤ cellStart counts c1 := cellStart_le counts _ _ h
    omega

/-- cntCell over an appended singleton. -/
theorem cntCell_append_singleton (cellOf : ℕ → ℕ) (done : List ℕ) (nd c : ℕ) :
    cntCell cellOf (done ++ [nd]) c
      = if c = cellOf nd then cntCell cellOf done c + 1 else cntCell cellOf done c := by
  unfold cntCell
  rw [List.filter_append, List.length_append]
  by_cases h : c = cellOf nd
  · rw [if_pos h]
    have h1 : (List.filter (fun x => decide (cellOf x = c)) [nd]).length = 1 := by
      simp [h.symm]
    omega
  · rw [if_neg h]
    have hne : ¬ (cellOf nd = c) := fun hh => h hh.symm
    have h1 : (List.filter (fun x => decide (cellOf x = c)) [nd]).length = 0 := by
      simp [hne]
    omega

/-- cntCell is additive over appending. -/
theorem cntCell_append (cellOf : ℕ → ℕ) (l1 l2 : List ℕ) (c : ℕ) :
    cntCell cellOf (l1 ++ l2) c = cntCell cellOf l1 c + cntCell cellOf l2 c := by
  unfold cntCell
  rw [List.filter_append, List.length_append]

/-- A list starting with nd has at least one node in nd's cell. -/
theorem cntCell_cons_self (cellOf : ℕ → ℕ) (nd : ℕ) (l : List ℕ) :
    1 ≤ cntCell cellOf (nd :: l) (cellOf nd) := by
  unfold cntCell
  rw [List.filter_cons, if_pos (by simp), List.length_cons]
  omega

/-- Filtering an appended singleton that matches the cell. -/
theorem filter_append_singleton_pos (cellOf : ℕ → ℕ) (done : List ℕ) (nd c : ℕ)
    (h : cellOf nd = c) :
    ((done ++ [nd]).filter fun x => cellOf x = c)
      = (done.filter fun x => cellOf x = c) ++ [nd] := by
  rw [List.filter_append]
  congr 1
  simp [h]

/-- Filtering an appended singleton that misses the cell. -/
theorem filter_append_singleton_neg (cellOf : ℕ → ℕ) (done : List ℕ) (nd c : ℕ)
    (h : ¬ cellOf nd = c) :
    ((done ++ [nd]).filter fun x => cellOf x = c)
      = done.filter fun x => cellOf x = c := by
  rw [List.filter_append]
  simp [h]

/-- The fill pass only reads the prefix-sum function at the cells of its nodes. -/
theorem fillLoop_congr (cellOf : ℕ → ℕ) (pts : ℕ → Point) (p1 p2 : ℕ → ℕ) :
    ∀ (l : List ℕ) (ins : ℕ → ℕ) (mp : ℕ → Point),
      (∀ nd ∈ l, p1 (cellOf nd) = p2 (cellOf nd)) →
      fillLoop cellOf pts p1 l ins mp = fillLoop cellOf pts p2 l ins mp := by
  intro l
  induction l with
  | nil => intro ins mp _; rfl
  | cons nd rest ih =>
      intro ins mp h
      show fillLoop cellOf pts p1 rest (bump ins (cellOf nd))
          (Function.update mp (p1 (cellOf nd) + ins (cellOf nd)) (pts nd))
        = fillLoop cellOf pts p2 rest (bump ins (cellOf nd))
          (Function.update mp (p2 (cellOf nd) + ins (cellOf nd)) (pts nd))
      rw [h nd (List.mem_cons_self nd rest)]
      exact ih _ _ fun z hz => h z (List.mem_cons_of_mem nd hz)

/-- Correctness invariant of the counting-sort fill pass: after processing all nodes,
position start-of-cell-c plus j holds the point of the j-th node (in input order)
whose cell is c. -/
theorem fillLoop_spec (cellOf : ℕ → ℕ) (pts : ℕ → Point) (K : ℕ) (nodes : List ℕ)
    (hK : ∀ nd ∈ nodes, cellOf nd < K) :
    ∀ (rest done : List ℕ) (mp : ℕ → Point), done ++ rest = nodes →
      (∀ c, c < K → ∀ j, j < cntCell cellOf done c →
        mp (cellStart (cntCell cellOf nodes) c + j)
          = pts ((done.filter fun nd => cellOf nd = c).getD j 0)) →
      ∀ c, c < K → ∀ j, j < cntCell cellOf nodes c →
        fillLoop cellOf pts (cellStart (cntCell cellOf nodes)) rest
            (fun c0 => cntCell cellOf done c0) mp
            (cellStart (cntCell cellOf nodes) c + j)
          = pts ((nodes.filter fun nd => cellOf nd = c).getD j 0) := by
  intro rest
  induction rest with
  | nil =>
      intro done mp happ hinv c hc j hj
      have hdone : done = nodes := by simpa using happ
      subst hdone
      exact hinv c hc j hj
  | cons nd rest' ih =>
      intro done mp happ hinv c hc j hj
      have hndmem : nd ∈ nodes := by
        rw [← happ]
        exact List.mem_append_right done (List.mem_cons_self nd rest')
      have hc0K : cellOf nd < K := hK nd hndmem
      have hwrite_lt : cntCell cellOf done (cellOf nd)
          < cntCell cellOf nodes (cellOf nd) := by
        rw [← happ, cntCell_append]
        have h1 := cntCell_cons_self cellOf nd rest'
        omega
      have hdone_le : ∀ c1, cntCell cellOf done c1 ≤ cntCell cellOf nodes c1 := by
        intro c1
        rw [← happ, cntCell_append]
        omega
      have hle' : ∀ c1, cntCell cellOf (done ++ [nd]) c1 ≤ cntCell cellOf nodes c1 := by
        intro c1
        rw [← happ, cntCell_append, cntCell_append]
        have h1 : cntCell cellOf [nd] c1 ≤ cntCell cellOf (nd :: rest') c1 := by
          have h2 : [nd] ++ rest' = nd :: rest' := rfl
          rw [← h2, cntCell_append]
          omega
        omega
      have hbump : bump (fun c0 => cntCell cellOf done c0) (cellOf nd)
          = fun c0 => cntCell cellOf (done ++ [nd]) c0 := by
        funext c0
        rw [cntCell_append_singleton]
        rfl
      have hinv' : ∀ c1, c1 < K → ∀ j1, j1 < cntCell cellOf (done ++ [nd]) c1 →
          Function.update mp (cellStart (cntCell cellOf nodes) (cellOf nd)
              + cntCell cellOf done (cellOf nd)) (pts nd)
            (cellStart (cntCell cellOf nodes) c1 + j1)
          = pts (((done ++ [nd]).filter fun x => cellOf x = c1).getD j1 0) := by
        intro c1 hc1 j1 hj1
        by_cases hcc : c1 = cellOf nd
        · subst hcc
          rw [cntCell_append_singleton, if_pos rfl] at hj1
          by_cases hje : j1 = cntCell cellOf done (cellOf nd)
          · subst hje
            rw [Function.update_same]
            rw [filter_append_singleton_pos cellOf done nd (cellOf nd) rfl]
            have hlen : (done.filter fun x => cellOf x = cellOf nd).length
                = cntCell cellOf done (cellOf nd) := rfl
            rw [List.getD_append_right _ _ _ _ (le_of_eq hlen)]
            simp [hlen]
          · have hj1lt : j1 < cntCell cellOf done (cellOf nd) := by omega
            have hpos : cellStart (cntCell cellOf nodes) (cellOf nd) + j1
                ≠ cellStart (cntCell cellOf nodes) (cellOf nd)
                  + cntCell cellOf done (cellOf nd) := by omega
            rw [Function.update_noteq hpos]
            rw [hinv (cellOf nd) hc1 j1 hj1lt,
              filter_append_singleton_pos cellOf done nd (cellOf nd) rfl]
            have hlen : j1 < (done.filter fun x => cellOf x = cellOf nd).length := hj1lt
            rw [List.getD_append _ _ _ _ hlen]
        · have hcnt1 : cntCell cellOf (done ++ [nd]) c1 = cntCell cellOf done c1 := by
            rw [cntCell_append_singleton, if_neg hcc]
          rw [hcnt1] at hj1
          have hpos : cellStart (cntCell cellOf nodes) c1 + j1
              ≠ cellStart (cntCell cellOf nodes) (cellOf nd)
                + cntCell cellOf done (cellOf nd) := by
            apply cellStart_pos_ne
            · exact lt_of_lt_of_le hj1 (hdone_le c1)
            · exact hwrite_lt
            · rintro ⟨h1, -⟩
              exact hcc h1
          rw [Function.update_noteq hpos]
          rw [hinv c1 hc1 j1 hj1,
            filter_append_singleton_neg cellOf done nd c1 fun hh => hcc hh.symm]
      have happ' : (done ++ [nd]) ++ rest' = nodes := by
        rw [← happ]
        simp
      have hmain := ih (done ++ [nd])
        (Function.update mp (cellStart (cntCell cellOf nodes) (cellOf nd)
          + cntCell cellOf done (cellOf nd)) (pts nd)) happ' hinv' c hc j hj
      show fillLoop cellOf pts (cellStart (cntCell cellOf nodes)) rest'
          (bump (fun c0 => cntCell cellOf done c0) (cellOf nd))
          (Function.update mp (cellStart (cntCell cellOf nodes) (cellOf nd)
            + cntCell cellOf done (cellOf nd)) (pts nd))
          (cellStart (cntCell cellOf nodes) c + j)
        = pts ((nodes.filter fun nd => cellOf nd = c).getD j 0)
      rw [hbump]
      exact hmain

/-- The prefix sums of a constructed layer, unfolded. -/
theorem build_prefix_sums_def (H : CellHierarchy) (r1 r2 : ℚ) (tl : ℕ)
    (nodes : List ℕ) (angles : ℕ → ℚ) (pts : ℕ → Point) :
    (RadiusLayer.build H r1 r2 tl nodes angles pts).prefix_sums
      = exclScan 0 ((List.range (H.numCellsInLevel tl + 1)).map
          (countCells (nodes.map fun nd => H.cellForPoint (angles nd) tl))) := rfl

/-- The stored points of a constructed layer, unfolded. -/
theorem build_points_def (H : CellHierarchy) (r1 r2 : ℚ) (tl : ℕ)
    (nodes : List ℕ) (angles : ℕ → ℚ) (pts : ℕ → Point) :
    (RadiusLayer.build H r1 r2 tl nodes angles pts).points
      = (List.range ((RadiusLayer.build H r1 r2 tl nodes angles pts).prefix_sums.getD
            (H.numCellsInLevel tl) 0)).map
          (fillLoop (fun nd => H.cellForPoint (angles nd) tl) pts
            (fun c => (RadiusLayer.build H r1 r2 tl nodes angles pts).prefix_sums.getD c 0)
            nodes (fun _ => 0) (fun _ => 0)) := rfl

/-- Every in-range entry of the constructed prefix sums is the exclusive cell start. -/
theorem build_prefix_getD (H : CellHierarchy) (r1 r2 : ℚ) (tl : ℕ)
    (nodes : List ℕ) (angles : ℕ → ℚ) (pts : ℕ → Point) (c : ℕ)
    (hc : c < H.numCellsInLevel tl + 1) :
    (RadiusLayer.build H r1 r2 tl nodes angles pts).prefix_sums.getD c 0
      = cellStart (cntCell (fun nd => H.cellForPoint (angles nd) tl) nodes) c := by
  rw [build_prefix_sums_def]
  have hcf : countCells (nodes.map fun nd => H.cellForPoint (angles nd) tl)
      = cntCell (fun nd => H.cellForPoint (angles nd) tl) nodes :=
    funext (countCells_eq_cntCell _ nodes)
  rw [hcf]
  exact scanList_getD _ _ c hc

/-- With all cells in range, the final prefix-sum entry is the total node count. -/
theorem cellStart_total (cellOf : ℕ → ℕ) (nodes : List ℕ) (K : ℕ)
    (hK : ∀ nd ∈ nodes, cellOf nd < K) :
    cellStart (cntCell cellOf nodes) K = nodes.length := by
  have h0 : K = 0 + K := by omega
  rw [h0, cellStart_interval cellOf nodes K 0]
  have hfil : (nodes.filter fun nd =>
      decide (0 ≤ cellOf nd) && decide (cellOf nd < 0 + K)) = nodes := by
    apply List.filter_eq_self.2
    intro a ha
    simp only [Bool.and_eq_true, decide_eq_true_eq]
    exact ⟨Nat.zero_le _, by simpa using hK a ha⟩
  rw [hfil]
  simp [cellStart]

/-- The value stored at cell start plus offset is the point of the corresponding node,
for the fill pass run with the constructed prefix sums. -/
theorem build_fill_value (H : CellHierarchy) (r1 r2 : ℚ) (tl : ℕ)
    (nodes : List ℕ) (angles : ℕ → ℚ) (pts : ℕ → Point)
    (hK : ∀ nd ∈ nodes, H.cellForPoint (angles nd) tl < H.numCellsInLevel tl)
    (c : ℕ) (hc : c < H.numCellsInLevel tl) (j : ℕ)
    (hj : j < cntCell (fun nd => H.cellForPoint (angles nd) tl) nodes c) :
    fillLoop (fun nd => H.cellForPoint (angles nd) tl) pts
        (fun c0 => (RadiusLayer.build H r1 r2 tl nodes angles pts).prefix_sums.getD c0 0)
        nodes (fun _ => 0) (fun _ => 0)
        (cellStart (cntCell (fun nd => H.cellForPoint (angles nd) tl) nodes) c + j)
      = pts ((nodes.filter fun nd => H.cellForPoint (angles nd) tl = c).getD j 0) := by
  rw [fillLoop_congr (fun nd => H.cellForPoint (angles nd) tl) pts
    (fun c0 => (RadiusLayer.build H r1 r2 tl nodes angles pts).prefix_sums.getD c0 0)
    (cellStart (cntCell (fun nd => H.cellForPoint (angles nd) tl) nodes))
    nodes (fun _ => 0) (fun _ => 0)
    (fun nd hnd => build_prefix_getD H r1 r2 tl nodes angles pts _
      (Nat.lt_succ_of_lt (hK nd hnd)))]
  have hempty : ∀ c1, c1 < H.numCellsInLevel tl →
      ∀ j1, j1 < cntCell (fun nd => H.cellForPoint (angles nd) tl) [] c1 →
      (fun _ : ℕ => (0 : Point))
          (cellStart (cntCell (fun nd => H.cellForPoint (angles nd) tl) nodes) c1 + j1)
        = pts ((([] : List ℕ).filter
            fun nd => H.cellForPoint (angles nd) tl = c1).getD j1 0) := by
    intro c1 _ j1 hj1
    exact absurd hj1 (Nat.not_lt_zero j1)
  exact fillLoop_spec (fun nd => H.cellForPoint (angles nd) tl) pts
    (H.numCellsInLevel tl) nodes hK nodes [] (fun _ => 0) rfl hempty c hc j hj

/-- A contiguous slice of a list, written as a map over a range of getD reads. -/
theorem drop_take_eq_range_map {α : Type} (l : List α) (d : α) (s m : ℕ)
    (h : s + m ≤ l.length) :
    (l.drop s).take m = (List.range m).map fun k => l.getD (s + k) d := by
  apply List.ext_getElem
  · rw [List.length_take, List.length_drop, List.length_map, List.length_range]
    omega
  · intro i h1 h2
    have him : i < m := by
      rw [List.length_map, List.length_range] at h2
      exact h2
    rw [List.getElem_take, List.getElem_drop, List.getElem_map, List.getElem_range]
    rw [List.getD_eq_getElem _ _ (by omega)]

/-- The slice of the stored points between consecutive prefix sums is exactly the
filtered node list of that cell, mapped to points, in input order. -/
theorem build_slice (H : CellHierarchy) (r1 r2 : ℚ) (tl : ℕ) (nodes : List ℕ)
    (angles : ℕ → ℚ) (pts : ℕ → Point)
    (hK : ∀ nd ∈ nodes, H.cellForPoint (angles nd) tl < H.numCellsInLevel tl)
    (c : ℕ) (hc : c < H.numCellsInLevel tl) :
    (((RadiusLayer.build H r1 r2 tl nodes angles pts).points.drop
        ((RadiusLayer.build H r1 r2 tl nodes angles pts).prefix_sums.getD c 0)).take
        ((RadiusLayer.build H r1 r2 tl nodes angles pts).prefix_sums.getD (c + 1) 0
          - (RadiusLayer.build H r1 r2 tl nodes angles pts).prefix_sums.getD c 0))
      = (nodes.filter fun nd => H.cellForPoint (angles nd) tl = c).map pts := by
  have hgc := build_prefix_getD H r1 r2 tl nodes angles pts c (by omega)
  have hgc1 := build_prefix_getD H r1 r2 tl nodes angles pts (c + 1) (by omega)
  have hgK := build_prefix_getD H r1 r2 tl nodes angles pts (H.numCellsInLevel tl)
    (by omega)
  have hsucc := cellStart_succ (cntCell (fun nd => H.cellForPoint (angles nd) tl) nodes) c
  have hmono := cellStart_le (cntCell (fun nd => H.cellForPoint (angles nd) tl) nodes)
    (c + 1) (H.numCellsInLevel tl) hc
  have hlenpts : (RadiusLayer.build H r1 r2 tl nodes angles pts).points.length
      = cellStart (cntCell (fun nd => H.cellForPoint (angles nd) tl) nodes)
          (H.numCellsInLevel tl) := by
    rw [build_points_def, List.length_map, List.length_range, hgK]
  rw [hgc, hgc1]
  rw [drop_take_eq_range_map _ (0 : Point) _ _ (by omega)]
  have hd : cellStart (cntCell (fun nd => H.cellForPoint (angles nd) tl) nodes) (c + 1)
      - cellStart (cntCell (fun nd => H.cellForPoint (angles nd) tl) nodes) c
      = cntCell (fun nd => H.cellForPoint (angles nd) tl) nodes c := by omega
  rw [hd]
  apply List.ext_getElem
  · rw [List.length_map, List.length_range, List.length_map]
    rfl
  · intro i h1 h2
    rw [List.getElem_map, List.getElem_map, List.getElem_range]
    have hi_cnt : i < cntCell (fun nd => H.cellForPoint (angles nd) tl) nodes c := by
      simpa using h1
    have hfill := build_fill_value H r1 r2 tl nodes angles pts hK c hc i hi_cnt
    rw [build_points_def, hgK, getD_range_map _ _ _ _ (by omega)]
    rw [hfill]
    rw [List.getD_eq_getElem _ _ hi_cnt]

/-- Claim C2: CONFIRMED. Constructing a RadiusLayer from any node set whose computed
finest-level cells lie in range establishes the data-model invariant: prefix_sums has
numCellsInLevel + 1 entries, starts at 0, is monotone, ends at the total point count,
and the slice of points between consecutive prefix sums is exactly the points of that
cell in stable input order. -/
theorem radiusLayer_build_invariant (H : CellHierarchy) (r_min r_max : ℚ)
    (targetLevel : ℕ) (nodes : List ℕ) (angles : ℕ → ℚ) (pts : ℕ → Point)
    (hK : ∀ nd ∈ nodes,
      H.cellForPoint (angles nd) targetLevel < H.numCellsInLevel targetLevel) :
    (RadiusLayer.build H r_min r_max targetLevel nodes angles pts).prefix_sums.length
        = H.numCellsInLevel targetLevel + 1 ∧
    (RadiusLayer.build H r_min r_max targetLevel nodes angles pts).prefix_sums.getD 0 0
        = 0 ∧
    (∀ i j, i ≤ j → j < H.numCellsInLevel targetLevel + 1 →
      (RadiusLayer.build H r_min r_max targetLevel nodes angles pts).prefix_sums.getD i 0
        ≤ (RadiusLayer.build H r_min r_max targetLevel nodes angles pts).prefix_sums.getD
            j 0) ∧
    (RadiusLayer.build H r_min r_max targetLevel nodes angles pts).prefix_sums.getD
        (H.numCellsInLevel targetLevel) 0 = nodes.length ∧
    (∀ c, c < H.numCellsInLevel targetLevel →
      (((RadiusLayer.build H r_min r_max targetLevel nodes angles pts).points.drop
          ((RadiusLayer.build H r_min r_max targetLevel nodes angles
            pts).prefix_sums.getD c 0)).take
          ((RadiusLayer.build H r_min r_max targetLevel nodes angles
              pts).prefix_sums.getD (c + 1) 0
            - (RadiusLayer.build H r_min r_max targetLevel nodes angles
                pts).prefix_sums.getD c 0))
        = (nodes.filter fun nd => H.cellForPoint (angles nd) targetLevel = c).map pts) := by
  refine ⟨?_, ?_, ?_, ?_, ?_⟩
  · rw [build_prefix_sums_def, exclScan_length, List.length_map, List.length_range]
  · rw [build_prefix_getD H r_min r_max targetLevel nodes angles pts 0 (by omega)]
    simp [cellStart]
  · intro i j hij hj
    rw [build_prefix_getD H r_min r_max targetLevel nodes angles pts i (by omega),
      build_prefix_getD H r_min r_max targetLevel nodes angles pts j hj]
    exact cellStart_le _ _ _ hij
  · rw [build_prefix_getD H r_min r_max targetLevel nodes angles pts _ (by omega)]
    exact cellStart_total _ nodes _ hK
  · intro c hc
    exact build_slice H r_min r_max targetLevel nodes angles pts hK c hc

/-- Witness for claim C2 at the concrete scenario layer. -/
theorem radiusLayer_build_invariant_witness :
    (∀ nd ∈ ([0, 1, 2, 3] : List ℕ),
      scenarioH.cellForPoint ((nd : ℚ)) 2 < scenarioH.numCellsInLevel 2) ∧
    (scenarioLayer.prefix_sums.length = scenarioH.numCellsInLevel 2 + 1 ∧
      scenarioLayer.prefix_sums.getD 0 0 = 0 ∧
      (∀ i j, i ≤ j → j < scenarioH.numCellsInLevel 2 + 1 →
        scenarioLayer.prefix_sums.getD i 0 ≤ scenarioLayer.prefix_sums.getD j 0) ∧
      scenarioLayer.prefix_sums.getD (scenarioH.numCellsInLevel 2) 0
        = ([0, 1, 2, 3] : List ℕ).length ∧
      (∀ c, c < scenarioH.numCellsInLevel 2 →
        ((scenarioLayer.points.drop (scenarioLayer.prefix_sums.getD c 0)).take
            (scenarioLayer.prefix_sums.getD (c + 1) 0
              - scenarioLayer.prefix_sums.getD c 0))
          = (([0, 1, 2, 3] : List ℕ).filter
              fun (nd : ℕ) => scenarioH.cellForPoint ((nd : ℚ)) 2 = c).map
              fun (nd : ℕ) => nd + 10)) :=
  ⟨by decide,
   radiusLayer_build_invariant scenarioH 0 1 2 [0, 1, 2, 3] (fun nd => (nd : ℚ))
     (fun nd => nd + 10) (by decide)⟩

/-- pointsInCell, unfolded to the two-part prefix-sum difference of the source. -/
theorem pointsInCell_def (L : RadiusLayer) (H : CellHierarchy) (cell level : ℕ) :
    L.pointsInCell H cell level
      = ((L.prefix_sums.getD ((cell - H.firstCellOfLevel level)
              * H.numCellsInLevel (L.target_level - level)
            + H.numCellsInLevel (L.target_level - level) - 1) 0 : ℤ)
          - (L.prefix_sums.getD ((cell - H.firstCellOfLevel level)
              * H.numCellsInLevel (L.target_level - level)) 0 : ℤ))
        + ((L.prefix_sums.getD ((cell - H.firstCellOfLevel level)
              * H.numCellsInLevel (L.target_level - level)
            + H.numCellsInLevel (L.target_level - level) - 1 + 1) 0 : ℤ)
          - (L.prefix_sums.getD ((cell - H.firstCellOfLevel level)
              * H.numCellsInLevel (L.target_level - level)
            + H.numCellsInLevel (L.target_level - level) - 1) 0 : ℤ)) := rfl

/-- Claim C3: CONFIRMED. For a constructed layer, a level at or above the target level
and a cell of that level whose descendant block lies inside the target level,
pointsInCell returns exactly the number of stored points whose finest-level cell
descends from the queried cell; and in the spec's concrete scenario (4 points with
finest-level cells [0,0,1,2] under a hierarchy whose target level has 3 cells) the
prefix sums are [0,2,3,4], pointsInCell of target-level cell 0 is 2 and pointsInCell
of the coarser parent covering cells 0 and 1 is 3. -/
theorem pointsInCell_descendant_count (H : CellHierarchy) (r_min r_max : ℚ)
    (targetLevel : ℕ) (nodes : List ℕ) (angles : ℕ → ℚ) (pts : ℕ → Point)
    (cell level : ℕ)
    (hK : ∀ nd ∈ nodes,
      H.cellForPoint (angles nd) targetLevel < H.numCellsInLevel targetLevel)
    (hcell : H.firstCellOfLevel level ≤ cell)
    (hlev : level ≤ targetLevel)
    (hD : 1 ≤ H.numCellsInLevel (targetLevel - level))
    (hblock : (cell - H.firstCellOfLevel level + 1)
        * H.numCellsInLevel (targetLevel - level) ≤ H.numCellsInLevel targetLevel) :
    ((RadiusLayer.build H r_min r_max targetLevel nodes angles
        pts).pointsInCell H cell level
      = ((nodes.filter fun nd => descendsTo H targetLevel
          (H.cellForPoint (angles nd) targetLevel) cell level).length : ℤ)) ∧
    (scenarioH.numCellsInLevel 2 = 3 ∧
      (([0, 1, 2, 3] : List ℕ).map fun nd => scenarioH.cellForPoint ((nd : ℚ)) 2)
        = [0, 0, 1, 2] ∧
      scenarioLayer.prefix_sums = [0, 2, 3, 4] ∧
      scenarioLayer.pointsInCell scenarioH 0 2 = 2 ∧
      scenarioLayer.pointsInCell scenarioH 0 1 = 3) := by
  constructor
  · have hb1 : (cell - H.firstCellOfLevel level + 1)
        * H.numCellsInLevel (targetLevel - level)
        = (cell - H.firstCellOfLevel level) * H.numCellsInLevel (targetLevel - level)
          + H.numCellsInLevel (targetLevel - level) := Nat.succ_mul _ _
    have htl : (RadiusLayer.build H r_min r_max targetLevel nodes angles
        pts).target_level = targetLevel := rfl
    rw [pointsInCell_def, htl]
    have he : (cell - H.firstCellOfLevel level) * H.numCellsInLevel (targetLevel - level)
        + H.numCellsInLevel (targetLevel - level) - 1 + 1
        = (cell - H.firstCellOfLevel level) * H.numCellsInLevel (targetLevel - level)
          + H.numCellsInLevel (targetLevel - level) := by omega
    rw [he]
    rw [build_prefix_getD H r_min r_max targetLevel nodes angles pts
        ((cell - H.firstCellOfLevel level) * H.numCellsInLevel (targetLevel - level)
          + H.numCellsInLevel (targetLevel - level) - 1) (by omega),
      build_prefix_getD H r_min r_max targetLevel nodes angles pts
        ((cell - H.firstCellOfLevel level) * H.numCellsInLevel (targetLevel - level))
        (by omega),
      build_prefix_getD H r_min r_max targetLevel nodes angles pts
        ((cell - H.firstCellOfLevel level) * H.numCellsInLevel (targetLevel - level)
          + H.numCellsInLevel (targetLevel - level)) (by omega)]
    have hint := cellStart_interval (fun nd => H.cellForPoint (angles nd) targetLevel)
      nodes (H.numCellsInLevel (targetLevel - level))
      ((cell - H.firstCellOfLevel level) * H.numCellsInLevel (targetLevel - level))
    have hfeq : (nodes.filter fun nd => descendsTo H targetLevel
          (H.cellForPoint (angles nd) targetLevel) cell level)
        = nodes.filter fun nd =>
            decide ((cell - H.firstCellOfLevel level)
              * H.numCellsInLevel (targetLevel - level)
              ≤ H.cellForPoint (angles nd) targetLevel)
            && decide (H.cellForPoint (angles nd) targetLevel
              < (cell - H.firstCellOfLevel level)
                * H.numCellsInLevel (targetLevel - level)
                + H.numCellsInLevel (targetLevel - level)) := by
      apply List.filter_congr
      intro x _
      simp only [descendsTo, hb1]
    rw [hfeq]
    omega
  · refine ⟨by decide, by decide, by decide, by decide, by decide⟩

/-- Witness for claim C3: the theorem applied to the scenario's coarser parent cell
covering target cells 0 and 1. -/
theorem pointsInCell_descendant_count_witness :
    ((∀ nd ∈ ([0, 1, 2, 3] : List ℕ),
        scenarioH.cellForPoint ((nd : ℚ)) 2 < scenarioH.numCellsInLevel 2) ∧
      scenarioH.firstCellOfLevel 1 ≤ 0 ∧ 1 ≤ 2 ∧
      1 ≤ scenarioH.numCellsInLevel (2 - 1) ∧
      (0 - scenarioH.firstCellOfLevel 1 + 1) * scenarioH.numCellsInLevel (2 - 1)
        ≤ scenarioH.numCellsInLevel 2) ∧
    (scenarioLayer.pointsInCell scenarioH 0 1
      = ((([0, 1, 2, 3] : List ℕ).filter fun (nd : ℕ) => descendsTo scenarioH 2
          (scenarioH.cellForPoint ((nd : ℚ)) 2) 0 1).length : ℤ)) :=
  ⟨⟨by decide, by decide, by decide, by decide, by decide⟩,
   (pointsInCell_descendant_count scenarioH 0 1 2 [0, 1, 2, 3] (fun nd => (nd : ℚ))
     (fun nd => nd + 10) 0 1 (by decide) (by decide) (by decide) (by decide)
     (by decide)).1⟩

/-- Concatenating the filters of two disjoint predicates permutes the filter of their
disjunction. -/
theorem filter_append_perm_or (p q r : ℕ → Bool)
    (hr : ∀ x, r x = true ↔ (p x = true ∨ q x = true))
    (hpq : ∀ x, ¬(p x = true ∧ q x = true)) :
    ∀ l : List ℕ, (l.filter p ++ l.filter q).Perm (l.filter r) := by
  intro l
  induction l with
  | nil => exact List.Perm.refl _
  | cons x xs ih =>
      rw [List.filter_cons, List.filter_cons, List.filter_cons]
      by_cases hp : p x = true
      · have hq : ¬ q x = true := fun hh => hpq x ⟨hp, hh⟩
        have hrx : r x = true := (hr x).2 (Or.inl hp)
        rw [if_pos hp, if_neg hq, if_pos hrx]
        exact ih.cons x
      · by_cases hq : q x = true
        · have hrx : r x = true := (hr x).2 (Or.inr hq)
          rw [if_neg hp, if_pos hq, if_pos hrx]
          exact List.Perm.trans List.perm_middle (ih.cons x)
        · have hrx : ¬ r x = true := fun hh => by
            rcases (hr x).1 hh with h' | h'
            · exact hp h'
            · exact hq h'
          rw [if_neg hp, if_neg hq, if_neg hrx]
          exact ih

/-- The per-cell slice in exclusive-cell-start form. -/
theorem build_slice_S (H : CellHierarchy) (r1 r2 : ℚ) (tl : ℕ) (nodes : List ℕ)
    (angles : ℕ → ℚ) (pts : ℕ → Point)
    (hK : ∀ nd ∈ nodes, H.cellForPoint (angles nd) tl < H.numCellsInLevel tl)
    (c : ℕ) (hc : c < H.numCellsInLevel tl) :
    (((RadiusLayer.build H r1 r2 tl nodes angles pts).points.drop
        (cellStart (cntCell (fun nd => H.cellForPoint (angles nd) tl) nodes) c)).take
        (cellStart (cntCell (fun nd => H.cellForPoint (angles nd) tl) nodes) (c + 1)
          - cellStart (cntCell (fun nd => H.cellForPoint (angles nd) tl) nodes) c))
      = (nodes.filter fun nd => H.cellForPoint (angles nd) tl = c).map pts := by
  have h1 := build_slice H r1 r2 tl nodes angles pts hK c hc
  rw [build_prefix_getD H r1 r2 tl nodes angles pts c (by omega),
    build_prefix_getD H r1 r2 tl nodes angles pts (c + 1) (by omega)] at h1
  exact h1

/-- The slice of the stored points spanning a contiguous block of cells is a
permutation of the nodes whose cell lies in the block, mapped to points. -/
theorem slice_perm_block (H : CellHierarchy) (r1 r2 : ℚ) (tl : ℕ) (nodes : List ℕ)
    (angles : ℕ → ℚ) (pts : ℕ → Point)
    (hK : ∀ nd ∈ nodes, H.cellForPoint (angles nd) tl < H.numCellsInLevel tl) :
    ∀ (D b : ℕ), b + D ≤ H.numCellsInLevel tl →
      (((RadiusLayer.build H r1 r2 tl nodes angles pts).points.drop
          (cellStart (cntCell (fun nd => H.cellForPoint (angles nd) tl) nodes) b)).take
          (cellStart (cntCell (fun nd => H.cellForPoint (angles nd) tl) nodes) (b + D)
            - cellStart (cntCell (fun nd => H.cellForPoint (angles nd) tl) nodes)
                b)).Perm
        ((nodes.filter fun nd => decide (b ≤ H.cellForPoint (angles nd) tl)
            && decide (H.cellForPoint (angles nd) tl < b + D)).map pts) := by
  intro D
  induction D with
  | zero =>
      intro b _
      rw [Nat.add_zero, Nat.sub_self, List.take_zero]
      have hfil : (nodes.filter fun nd => decide (b ≤ H.cellForPoint (angles nd) tl)
          && decide (H.cellForPoint (angles nd) tl < b)) = [] := by
        rw [List.filter_eq_nil]
        intro a _
        simp only [Bool.and_eq_true, decide_eq_true_eq, not_and]
        omega
      rw [hfil]
      exact List.Perm.refl _
  | succ D ih =>
      intro b hb
      have hbD : b + (D + 1) = (b + D) + 1 := by omega
      rw [hbD]
      have hsucc := cellStart_succ
        (cntCell (fun nd => H.cellForPoint (angles nd) tl) nodes) (b + D)
      have hmono1 : cellStart (cntCell (fun nd => H.cellForPoint (angles nd) tl) nodes) b
          ≤ cellStart (cntCell (fun nd => H.cellForPoint (angles nd) tl) nodes)
              (b + D) := cellStart_le _ _ _ (by omega)
      have hsum : cellStart (cntCell (fun nd => H.cellForPoint (angles nd) tl) nodes)
            ((b + D) + 1)
          - cellStart (cntCell (fun nd => H.cellForPoint (angles nd) tl) nodes) b
          = (cellStart (cntCell (fun nd => H.cellForPoint (angles nd) tl) nodes) (b + D)
              - cellStart (cntCell (fun nd => H.cellForPoint (angles nd) tl) nodes) b)
            + (cellStart (cntCell (fun nd => H.cellForPoint (angles nd) tl) nodes)
                  ((b + D) + 1)
              - cellStart (cntCell (fun nd => H.cellForPoint (angles nd) tl) nodes)
                  (b + D)) := by
        omega
      rw [hsum, List.take_add, List.drop_drop]
      have hSb : cellStart (cntCell (fun nd => H.cellForPoint (angles nd) tl) nodes) b
          + (cellStart (cntCell (fun nd => H.cellForPoint (angles nd) tl) nodes) (b + D)
            - cellStart (cntCell (fun nd => H.cellForPoint (angles nd) tl) nodes) b)
          = cellStart (cntCell (fun nd => H.cellForPoint (angles nd) tl) nodes)
              (b + D) := by
        omega
      rw [hSb]
      have h1 := ih b (by omega)
      have h2 := build_slice_S H r1 r2 tl nodes angles pts hK (b + D) (by omega)
      have hperm2 := filter_append_perm_or
        (fun nd => decide (b ≤ H.cellForPoint (angles nd) tl)
          && decide (H.cellForPoint (angles nd) tl < b + D))
        (fun nd => decide (H.cellForPoint (angles nd) tl = b + D))
        (fun nd => decide (b ≤ H.cellForPoint (angles nd) tl)
          && decide (H.cellForPoint (angles nd) tl < (b + D) + 1))
        (by
          intro x
          simp only [Bool.and_eq_true, decide_eq_true_eq]
          omega)
        (by
          intro x
          simp only [Bool.and_eq_true, decide_eq_true_eq, not_and]
          omega)
        nodes
      have h2p : (((RadiusLayer.build H r1 r2 tl nodes angles pts).points.drop
            (cellStart (cntCell (fun nd => H.cellForPoint (angles nd) tl) nodes)
              (b + D))).take
            (cellStart (cntCell (fun nd => H.cellForPoint (angles nd) tl) nodes)
                ((b + D) + 1)
              - cellStart (cntCell (fun nd => H.cellForPoint (angles nd) tl) nodes)
                  (b + D))).Perm
          ((nodes.filter fun nd =>
            decide (H.cellForPoint (angles nd) tl = b + D)).map pts) := by
        rw [h2]
      refine List.Perm.trans (List.Perm.append h1 h2p) ?_
      rw [← List.map_append]
      exact hperm2.map pts

/-- kthPoint, unfolded to its prefix-sum offset read. -/
theorem kthPoint_def (L : RadiusLayer) (H : CellHierarchy) (cell level k : ℕ) :
    L.kthPoint H cell level k
      = L.points.getD (L.prefix_sums.getD ((cell - H.firstCellOfLevel level)
          * H.numCellsInLevel (L.target_level - level)) 0 + k) 0 := rfl

/-- Claim C6: CONFIRMED. For a constructed layer and a valid cell of a coarser level,
the values kthPoint(cell, level, k) for k below pointsInCell(cell, level) enumerate
exactly the multiset of stored points whose finest-level cell descends from the
queried cell, with no duplicates and no omissions. -/
theorem kthPoint_enumerates_descendants (H : CellHierarchy) (r_min r_max : ℚ)
    (targetLevel : ℕ) (nodes : List ℕ) (angles : ℕ → ℚ) (pts : ℕ → Point)
    (cell level : ℕ)
    (hK : ∀ nd ∈ nodes,
      H.cellForPoint (angles nd) targetLevel < H.numCellsInLevel targetLevel)
    (hcell : H.firstCellOfLevel level ≤ cell)
    (hlev : level ≤ targetLevel)
    (hD : 1 ≤ H.numCellsInLevel (targetLevel - level))
    (hblock : (cell - H.firstCellOfLevel level + 1)
        * H.numCellsInLevel (targetLevel - level) ≤ H.numCellsInLevel targetLevel) :
    (((List.range ((RadiusLayer.build H r_min r_max targetLevel nodes angles
            pts).pointsInCell H cell level).toNat).map
        fun k => (RadiusLayer.build H r_min r_max targetLevel nodes angles
          pts).kthPoint H cell level k) : Multiset Point)
      = (((nodes.filter fun nd => descendsTo H targetLevel
          (H.cellForPoint (angles nd) targetLevel) cell level).map pts) :
          Multiset Point) := by
  have hb1 : (cell - H.firstCellOfLevel level + 1)
      * H.numCellsInLevel (targetLevel - level)
      = (cell - H.firstCellOfLevel level) * H.numCellsInLevel (targetLevel - level)
        + H.numCellsInLevel (targetLevel - level) := Nat.succ_mul _ _
  have htl : (RadiusLayer.build H r_min r_max targetLevel nodes angles
      pts).target_level = targetLevel := rfl
  have hmono := cellStart_le
    (cntCell (fun nd => H.cellForPoint (angles nd) targetLevel) nodes)
    ((cell - H.firstCellOfLevel level) * H.numCellsInLevel (targetLevel - level))
    ((cell - H.firstCellOfLevel level) * H.numCellsInLevel (targetLevel - level)
      + H.numCellsInLevel (targetLevel - level)) (by omega)
  have he : (cell - H.firstCellOfLevel level) * H.numCellsInLevel (targetLevel - level)
      + H.numCellsInLevel (targetLevel - level) - 1 + 1
      = (cell - H.firstCellOfLevel level) * H.numCellsInLevel (targetLevel - level)
        + H.numCellsInLevel (targetLevel - level) := by omega
  have hptc : (RadiusLayer.build H r_min r_max targetLevel nodes angles
      pts).pointsInCell H cell level
      = ((cellStart (cntCell (fun nd => H.cellForPoint (angles nd) targetLevel) nodes)
          ((cell - H.firstCellOfLevel level) * H.numCellsInLevel (targetLevel - level)
            + H.numCellsInLevel (targetLevel - level)) : ℤ)
        - (cellStart (cntCell (fun nd => H.cellForPoint (angles nd) targetLevel) nodes)
            ((cell - H.firstCellOfLevel level)
              * H.numCellsInLevel (targetLevel - level)) : ℤ)) := by
    rw [pointsInCell_def, htl, he,
      build_prefix_getD H r_min r_max targetLevel nodes angles pts _ (by omega),
      build_prefix_getD H r_min r_max targetLevel nodes angles pts _ (by omega),
      build_prefix_getD H r_min r_max targetLevel nodes angles pts _ (by omega)]
    omega
  have hton : ((RadiusLayer.build H r_min r_max targetLevel nodes angles
      pts).pointsInCell H cell level).toNat
      = cellStart (cntCell (fun nd => H.cellForPoint (angles nd) targetLevel) nodes)
          ((cell - H.firstCellOfLevel level) * H.numCellsInLevel (targetLevel - level)
            + H.numCellsInLevel (targetLevel - level))
        - cellStart (cntCell (fun nd => H.cellForPoint (angles nd) targetLevel) nodes)
            ((cell - H.firstCellOfLevel level)
              * H.numCellsInLevel (targetLevel - level)) := by
    rw [hptc]
    omega
  have hkth : ∀ k, (RadiusLayer.build H r_min r_max targetLevel nodes angles
      pts).kthPoint H cell level k
      = (RadiusLayer.build H r_min r_max targetLevel nodes angles pts).points.getD
          (cellStart (cntCell (fun nd => H.cellForPoint (angles nd) targetLevel) nodes)
            ((cell - H.firstCellOfLevel level)
              * H.numCellsInLevel (targetLevel - level)) + k) 0 := by
    intro k
    rw [kthPoint_def, htl,
      build_prefix_getD H r_min r_max targetLevel nodes angles pts _ (by omega)]
  have hlenpts : (RadiusLayer.build H r_min r_max targetLevel nodes angles
      pts).points.length
      = cellStart (cntCell (fun nd => H.cellForPoint (angles nd) targetLevel) nodes)
          (H.numCellsInLevel targetLevel) := by
    rw [build_points_def, List.length_map, List.length_range,
      build_prefix_getD H r_min r_max targetLevel nodes angles pts _ (by omega)]
  have hmonoK := cellStart_le
    (cntCell (fun nd => H.cellForPoint (angles nd) targetLevel) nodes)
    ((cell - H.firstCellOfLevel level) * H.numCellsInLevel (targetLevel - level)
      + H.numCellsInLevel (targetLevel - level))
    (H.numCellsInLevel targetLevel) (by omega)
  have hmapeq : (List.range
        (cellStart (cntCell (fun nd => H.cellForPoint (angles nd) targetLevel) nodes)
          ((cell - H.firstCellOfLevel level) * H.numCellsInLevel (targetLevel - level)
            + H.numCellsInLevel (targetLevel - level))
        - cellStart (cntCell (fun nd => H.cellForPoint (angles nd) targetLevel) nodes)
            ((cell - H.firstCellOfLevel level)
              * H.numCellsInLevel (targetLevel - level)))).map
        (fun k => (RadiusLayer.build H r_min r_max targetLevel nodes angles
          pts).kthPoint H cell level k)
      = ((RadiusLayer.build H r_min r_max targetLevel nodes angles pts).points.drop
          (cellStart (cntCell (fun nd => H.cellForPoint (angles nd) targetLevel) nodes)
            ((cell - H.firstCellOfLevel level)
              * H.numCellsInLevel (targetLevel - level)))).take
          (cellStart (cntCell (fun nd => H.cellForPoint (angles nd) targetLevel) nodes)
            ((cell - H.firstCellOfLevel level) * H.numCellsInLevel (targetLevel - level)
              + H.numCellsInLevel (targetLevel - level))
          - cellStart (cntCell (fun nd => H.cellForPoint (angles nd) targetLevel) nodes)
              ((cell - H.firstCellOfLevel level)
                * H.numCellsInLevel (targetLevel - level))) := by
    rw [drop_take_eq_range_map _ (0 : Point) _ _ (by omega)]
    exact List.map_congr_left fun k _ => hkth k
  rw [hton, hmapeq]
  refine (Multiset.coe_eq_coe).2 ?_
  have hfeq : (nodes.filter fun nd => descendsTo H targetLevel
        (H.cellForPoint (angles nd) targetLevel) cell level)
      = nodes.filter fun nd =>
          decide ((cell - H.firstCellOfLevel level)
            * H.numCellsInLevel (targetLevel - level)
            ≤ H.cellForPoint (angles nd) targetLevel)
          && decide (H.cellForPoint (angles nd) targetLevel
            < (cell - H.firstCellOfLevel level)
              * H.numCellsInLevel (targetLevel - level)
              + H.numCellsInLevel (targetLevel - level)) := by
    apply List.filter_congr
    intro x _
    simp only [descendsTo, hb1]
  rw [hfeq]
  exact slice_perm_block H r_min r_max targetLevel nodes angles pts hK
    (H.numCellsInLevel (targetLevel - level))
    ((cell - H.firstCellOfLevel level) * H.numCellsInLevel (targetLevel - level))
    (by omega)

/-- Witness for claim C6: the theorem applied to the scenario's coarser parent cell. -/
theorem kthPoint_enumerates_descendants_witness :
    ((∀ nd ∈ ([0, 1, 2, 3] : List ℕ),
        scenarioH.cellForPoint ((nd : ℚ)) 2 < scenarioH.numCellsInLevel 2) ∧
      scenarioH.firstCellOfLevel 1 ≤ 0 ∧ 1 ≤ 2 ∧
      1 ≤ scenarioH.numCellsInLevel (2 - 1) ∧
      (0 - scenarioH.firstCellOfLevel 1 + 1) * scenarioH.numCellsInLevel (2 - 1)
        ≤ scenarioH.numCellsInLevel 2) ∧
    (((List.range (scenarioLayer.pointsInCell scenarioH 0 1).toNat).map
        fun k => scenarioLayer.kthPoint scenarioH 0 1 k) : Multiset Point)
      = (((([0, 1, 2, 3] : List ℕ).filter fun (nd : ℕ) => descendsTo scenarioH 2
          (scenarioH.cellForPoint ((nd : ℚ)) 2) 0 1).map fun (nd : ℕ) => nd + 10) :
          Multiset Point) :=
  ⟨⟨by decide, by decide, by decide, by decide, by decide⟩,
   kthPoint_enumerates_descendants scenarioH 0 1 2 [0, 1, 2, 3] (fun nd => (nd : ℚ))
     (fun nd => nd + 10) 0 1 (by decide) (by decide) (by decide) (by decide)
     (by decide)⟩
